import Mathlib

/-!
Verification development for the yapfm cache layer.

The development shallowly embeds:
* `yapfm.cache.SmartCache` — the bounded, TTL-expiring, LRU-evicting
  key/value cache.  Its implementation module is not part of the source
  tree here (only its package declaration, tests and callers are), so the
  cache model below is modelled from the specification document.
* `yapfm.mixins.cache_mixin.CacheMixin` — translated from
  `src/yapfm/mixins/cache_mixin.py`.
* `yapfm.helpers.utils.split_dot_key` / `join_dot_key` — translated from
  `src/yapfm/helpers/utils.py`.

Python strings are modelled as `List Char`, timestamps and durations as
`Nat`, and floating point quantities (megabyte limits, hit rates) as `ℚ`.
A cache call receives the current time `now` as an explicit argument.
-/

namespace Yapfm

/-- Cache keys are strings, modelled as lists of characters. -/
abbrev Key := List Char

/-- Modelled from the spec: the per-key metadata record `Entry` of the
missing `smart_cache.py` (value, creation timestamp, optional ttl, last
access timestamp, access count, byte-size estimate). -/
structure Entry (V : Type) where
  value : V
  created_at : Nat
  ttl : Option Nat
  last_access : Nat
  access_count : Nat
  size : Nat
deriving Repr, DecidableEq

/-- Modelled from the spec: the `SmartCache` aggregate state of the missing
`smart_cache.py`.  `entries` is kept in recency order, least-recently-used
first (an ordered map realises both the key→Entry map and the recency
structure, as the spec's RecencyTracker section prescribes). -/
structure Cache (V : Type) where
  entries : List (Key × Entry V)
  total_memory : Nat
  max_size : Nat
  max_memory_mb : ℚ
  default_ttl : Option Nat
  cleanup_interval : Nat
  last_cleanup : Nat
  track_stats : Bool
  hits : Nat
  misses : Nat
  evictions : Nat
  expired_cleanups : Nat
deriving Repr, DecidableEq

variable {V : Type}

/-- First entry stored under key `k` (Python dict lookup; keys are unique
in every reachable state). -/
def lookupE (k : Key) : List (Key × Entry V) → Option (Entry V)
  | [] => none
  | p :: ps => if p.1 = k then some p.2 else lookupE k ps

/-- Remove the first entry stored under key `k` (Python `del d[k]`). -/
def eraseE (k : Key) : List (Key × Entry V) → List (Key × Entry V)
  | [] => []
  | p :: ps => if p.1 = k then ps else p :: eraseE k ps

/-- Sum of the `size` fields of a list of entries. -/
def sizesSum (l : List (Key × Entry V)) : Nat :=
  (l.map (fun p => p.2.size)).sum

/-- The memory ceiling in bytes: `max_memory_mb` megabytes. -/
def Cache.maxMemoryBytes (c : Cache V) : ℚ :=
  c.max_memory_mb * 1048576

/-- Executable test for `total > mm * 1048576` (in bytes), phrased with
integer cross-multiplication so that it evaluates by kernel reduction. -/
def memGt (total : Nat) (mm : ℚ) : Bool :=
  decide ((total : Int) * mm.den > mm.num * 1048576)

/-- Modelled from the spec: an entry is expired iff its `ttl` is set and
`now - created_at > ttl`. -/
def isExpired (now : Nat) (e : Entry V) : Bool :=
  match e.ttl with
  | none => false
  | some t => decide (now - e.created_at > t)

/-- Increment a statistics counter by `k` only when `track_stats` is on. -/
def bump (ts : Bool) (n k : Nat) : Nat :=
  if ts then n + k else n

/-- Modelled from the spec: the lazy expiry sweep.  If
`now - last_cleanup >= cleanup_interval`, remove every expired entry,
add the removed count to `expired_cleanups` and set `last_cleanup := now`;
otherwise do nothing. -/
def sweep (now : Nat) (c : Cache V) : Cache V :=
  if now - c.last_cleanup ≥ c.cleanup_interval then
    let removed := c.entries.filter (fun p => isExpired now p.2)
    let kept := c.entries.filter (fun p => !isExpired now p.2)
    { c with
      entries := kept
      total_memory := c.total_memory - sizesSum removed
      expired_cleanups := bump c.track_stats c.expired_cleanups removed.length
      last_cleanup := now }
  else c

/-- Modelled from the spec: the capacity-enforcement loop, with explicit
fuel.  While the entry count exceeds `max_size` or `total_memory` exceeds
`max_memory_bytes`, evict the entry at the least-recently-used end (the
head of `entries`), counting one eviction per removal. -/
def enforceLoop : Nat → Cache V → Cache V
  | 0, c => c
  | fuel + 1, c =>
    if decide (c.entries.length > c.max_size) || memGt c.total_memory c.max_memory_mb then
      match c.entries with
      | [] => c
      | p :: rest =>
        enforceLoop fuel
          { c with
            entries := rest
            total_memory := c.total_memory - p.2.size
            evictions := bump c.track_stats c.evictions 1 }
    else c

/-- Capacity enforcement run to completion (the fuel `entries.length`
always suffices: each iteration removes one entry, and the empty cache
satisfies both bounds). -/
def enforce (c : Cache V) : Cache V :=
  enforceLoop c.entries.length c

/-- Modelled from the spec: `SmartCache.set`.  On overwrite the old
entry's size is first subtracted from `total_memory`; the new entry gets
`ttl` if given else `default_ttl`, the effective size `sz`, and is placed
at the most-recently-used position; then the lazy sweep and capacity
enforcement run. -/
def setE (k : Key) (v : V) (ttl? : Option Nat) (sz : Nat) (now : Nat) (c : Cache V) :
    Cache V :=
  let c1 :=
    match lookupE k c.entries with
    | some old =>
      { c with
        entries := eraseE k c.entries
        total_memory := c.total_memory - old.size }
    | none => c
  let e : Entry V :=
    { value := v
      created_at := now
      ttl := match ttl? with | some t => some t | none => c.default_ttl
      last_access := now
      access_count := 0
      size := sz }
  let c2 :=
    { c1 with
      entries := c1.entries ++ [(k, e)]
      total_memory := c1.total_memory + sz }
  enforce (sweep now c2)

/-- Modelled from the spec: `SmartCache.get`.  Lazy sweep first; absent
key is a miss returning the default; an expired entry is removed and is a
miss; otherwise bookkeeping is updated, the key moves to the MRU end, a
hit is recorded and the stored value returned. -/
def getE (k : Key) (d : V) (now : Nat) (c : Cache V) : V × Cache V :=
  let c := sweep now c
  match lookupE k c.entries with
  | none => (d, { c with misses := bump c.track_stats c.misses 1 })
  | some e =>
    if isExpired now e then
      (d, { c with
            entries := eraseE k c.entries
            total_memory := c.total_memory - e.size
            misses := bump c.track_stats c.misses 1 })
    else
      let e' := { e with access_count := e.access_count + 1, last_access := now }
      (e.value,
       { c with
         entries := eraseE k c.entries ++ [(k, e')]
         hits := bump c.track_stats c.hits 1 })

/-- Modelled from the spec: `SmartCache.has_key` — present and not
expired; no state change. -/
def hasKeyE (k : Key) (now : Nat) (c : Cache V) : Bool :=
  match lookupE k c.entries with
  | none => false
  | some e => !isExpired now e

/-- Modelled from the spec: `SmartCache.delete` — remove the entry if
present, decrementing `total_memory`; report whether a removal occurred;
no statistics impact. -/
def deleteE (k : Key) (c : Cache V) : Bool × Cache V :=
  match lookupE k c.entries with
  | none => (false, c)
  | some e =>
    (true,
     { c with
       entries := eraseE k c.entries
       total_memory := c.total_memory - e.size })

/-- Modelled from the spec: `SmartCache.clear` — remove all entries and
reset `total_memory` to 0; lifetime counters and configuration are left
untouched. -/
def clearE (c : Cache V) : Cache V :=
  { c with entries := [], total_memory := 0 }

/-- Split a glob pattern on `*` into its literal segments (always at
least one segment; a leading/trailing `*` yields an empty first/last
segment). -/
def splitOnStar : List Char → List (List Char)
  | [] => [[]]
  | c :: rest =>
    if c = '*' then [] :: splitOnStar rest
    else
      match splitOnStar rest with
      | [] => [[c]]
      | s :: ss => (c :: s) :: ss

/-- If `seg` is a prefix of `key`, return the remainder of `key`. -/
def stripSeg : List Char → List Char → Option (List Char)
  | [], key => some key
  | _ :: _, [] => none
  | c :: cs, k :: ks => if c = k then stripSeg cs ks else none

/-- Find the first occurrence of `seg` inside `key`; return the remainder
of `key` after that occurrence. -/
def findSeg (seg : List Char) : List Char → Option (List Char)
  | [] => stripSeg seg []
  | k :: ks =>
    match stripSeg seg (k :: ks) with
    | some rest => some rest
    | none => findSeg seg ks

/-- Does `key` end with `seg`? -/
def endsWith (seg key : List Char) : Bool :=
  decide (seg.length ≤ key.length) &&
    decide (List.drop (key.length - seg.length) key = seg)

/-- Match the middle/last literal segments of a glob pattern: middle
segments must appear in order, the last segment is anchored to the end of
the key.  An empty segment list means the pattern had no `*` and the whole
key must already be consumed. -/
def matchSegs : List (List Char) → List Char → Bool
  | [], key => key.isEmpty
  | [seg], key => endsWith seg key
  | seg :: segs, key =>
    match findSeg seg key with
    | none => false
    | some rest => matchSegs segs rest

/-- Modelled from the spec: the glob matcher used by
`invalidate_pattern`: split the pattern on `*`, require each literal
segment to appear in order within the key, with the first/last segment
anchored to the key's start/end when the pattern does not start/end with
`*`. -/
def globMatch (pat key : List Char) : Bool :=
  match splitOnStar pat with
  | [] => key.isEmpty
  | seg :: segs =>
    match stripSeg seg key with
    | none => false
    | some rest => matchSegs segs rest

/-- Modelled from the spec: `SmartCache.invalidate_pattern` — remove every
key matching the glob pattern, return the number removed. -/
def invalidatePattern (pat : Key) (c : Cache V) : Nat × Cache V :=
  let removed := c.entries.filter (fun p => globMatch pat p.1)
  let kept := c.entries.filter (fun p => !globMatch pat p.1)
  (removed.length,
   { c with
     entries := kept
     total_memory := c.total_memory - sizesSum removed })

/-- The record returned by `get_stats`. -/
structure CacheStats where
  hits : Nat
  misses : Nat
  size : Nat
  memory_usage_mb : ℚ
  max_memory_mb : ℚ
  evictions : Nat
  expired_cleanups : Nat
  hit_rate : ℚ
deriving Repr, DecidableEq

/-- Modelled from the spec: `SmartCache.get_stats`. -/
def getStats (c : Cache V) : CacheStats :=
  { hits := c.hits
    misses := c.misses
    size := c.entries.length
    memory_usage_mb := (c.total_memory : ℚ) / (1024 * 1024)
    max_memory_mb := c.max_memory_mb
    evictions := c.evictions
    expired_cleanups := c.expired_cleanups
    hit_rate :=
      if c.hits + c.misses > 0 then (c.hits : ℚ) / ((c.hits : ℚ) + (c.misses : ℚ))
      else 0 }

/-- Modelled from the spec: `SmartCache.__init__`.  `max_size` must be a
positive integer and `max_memory_mb` a positive number (converted to
bytes); non-positive values are rejected at construction. -/
def mkCache (V : Type) (max_size : Int) (max_memory_mb : ℚ) (default_ttl : Option Nat)
    (cleanup_interval : Nat) (track_stats : Bool) : Option (Cache V) :=
  if max_size ≤ 0 ∨ max_memory_mb ≤ 0 then none
  else
    some
      { entries := []
        total_memory := 0
        max_size := max_size.toNat
        max_memory_mb := max_memory_mb
        default_ttl := default_ttl
        cleanup_interval := cleanup_interval
        last_cleanup := 0
        track_stats := track_stats
        hits := 0
        misses := 0
        evictions := 0
        expired_cleanups := 0 }

/-- One `set` call of a trace: key, value, optional ttl, effective size,
and the time at which the call happens. -/
structure SetCall (V : Type) where
  key : Key
  value : V
  ttl : Option Nat
  size : Nat
  now : Nat
deriving Repr, DecidableEq

/-- Apply a sequence of `set` calls in order. -/
def applyCalls (c : Cache V) : List (SetCall V) → Cache V
  | [] => c
  | sc :: rest => applyCalls (setE sc.key sc.value sc.ttl sc.size sc.now c) rest

/-!
`CacheMixin` (translated from `src/yapfm/mixins/cache_mixin.py`).  The
mixin's `_cache` field is `Option (Cache V)` (`None` when caching is
disabled).  The parent class's document is abstracted as a lookup function
`doc : Key → Option V` (`none` for a key absent from the file), so the
parent `get_key` returns `(doc k).getD d` for default `d`.  The size
estimator used by `SmartCache.set` is abstracted as `est : V → Nat`. -/

/-- `CacheMixin.get_value`: consult `has_key` first; on a cache hit return
`cache.get` without reading the document; otherwise read the parent value
and store it in the cache (including `None` values). -/
def mixinGetValue (est : V → Nat) (doc : Key → Option V) (d : V) (k : Key) (now : Nat) :
    Option (Cache V) → V × Option (Cache V)
  | none => ((doc k).getD d, none)
  | some c =>
    if hasKeyE k now c then
      let r := getE k d now c
      (r.1, some r.2)
    else
      let v := (doc k).getD d
      (v, some (setE k v none (est v) now c))

/-- `CacheMixin.invalidate_cache`: with no cache, return 0; with pattern
`None`, clear and return the previous entry count; otherwise defer to
`invalidate_pattern`. -/
def mixinInvalidateCache (pat? : Option Key) : Option (Cache V) → Nat × Option (Cache V)
  | none => (0, none)
  | some c =>
    match pat? with
    | none => (c.entries.length, some (clearE c))
    | some pat =>
      let r := invalidatePattern pat c
      (r.1, some r.2)

/-!
Dot-key helpers (translated from `src/yapfm/helpers/utils.py`).  Python's
`s.split(".")` on a single-character separator is `splitOnDot`; Python's
`".".join` is `joinDot`.
-/

/-- Python `s.split(".")` over `List Char`: always returns at least one
segment; a dot starts a new (possibly empty) segment. -/
def splitOnDot : List Char → List (List Char)
  | [] => [[]]
  | c :: rest =>
    if c = '.' then [] :: splitOnDot rest
    else
      match splitOnDot rest with
      | [] => [[c]]
      | s :: ss => (c :: s) :: ss

/-- Python `".".join(parts)` over `List Char`. -/
def joinDot : List (List Char) → List Char
  | [] => []
  | [s] => s
  | s :: ss => s ++ '.' :: joinDot ss

/-- `split_dot_key` from `utils.py`: `parts = dot_key.split(".")`, return
`(parts[:-1], parts[-1])`. -/
def split_dot_key (dot_key : List Char) : List (List Char) × List Char :=
  let parts := splitOnDot dot_key
  (parts.dropLast, parts.getLastD [])

/-- `join_dot_key` from `utils.py`: `".".join(path + [key_name])`. -/
def join_dot_key (path : List (List Char)) (key_name : List Char) : List Char :=
  joinDot (path ++ [key_name])

/-! ### Invariants of the cache state -/

/-- Keys are pairwise distinct (Python dict keys are unique). -/
abbrev keysNodup (c : Cache V) : Prop := (c.entries.map Prod.fst).Nodup

/-- `total_memory` equals the sum of all entry sizes. -/
abbrev memAccurate (c : Cache V) : Prop := c.total_memory = sizesSum c.entries

/-- The reachable-state invariant: distinct keys, accurate memory
accounting, a non-negative memory limit. -/
abbrev CacheInv (c : Cache V) : Prop :=
  keysNodup c ∧ memAccurate c ∧ 0 ≤ c.max_memory_mb

/-- Both capacity bounds hold (the executable form). -/
abbrev withinBounds (c : Cache V) : Prop :=
  c.entries.length ≤ c.max_size ∧ memGt c.total_memory c.max_memory_mb = false

/-- The configuration fields of two cache states agree. -/
abbrev sameConfig (a b : Cache V) : Prop :=
  a.max_size = b.max_size ∧ a.max_memory_mb = b.max_memory_mb ∧
    a.default_ttl = b.default_ttl ∧ a.cleanup_interval = b.cleanup_interval ∧
    a.track_stats = b.track_stats

/-! ### Concrete example states (used by scenario claims and witnesses) -/

/-- A freshly constructed cache with the default configuration
(`max_size = 1000`, `max_memory_mb = 100`, no default TTL,
`cleanup_interval = 60`, stats tracked). -/
def baseCache : Cache Nat :=
  { entries := []
    total_memory := 0
    max_size := 1000
    max_memory_mb := 100
    default_ttl := none
    cleanup_interval := 60
    last_cleanup := 0
    track_stats := true
    hits := 0
    misses := 0
    evictions := 0
    expired_cleanups := 0 }

/-- A fresh cache with `max_size = 3` (the LRU scenario configuration). -/
def lruCache : Cache Nat :=
  { baseCache with max_size := 3 }

/-- The LRU scenario: set A, B, C, get A, set D (times 0..4, unit sizes,
no TTLs). -/
def lruFinal : Cache Nat :=
  setE ['D'] 4 none 1 4
    (getE ['A'] 0 3
      (setE ['C'] 3 none 1 2
        (setE ['B'] 2 none 1 1
          (setE ['A'] 1 none 1 0 lruCache)))).2

/-- The stats scenario: one miss on `k`, then set `k`, then one hit on
`k`, on a fresh default cache. -/
def statsFinal : Cache Nat :=
  (getE ['k'] 0 2
    (setE ['k'] 7 none 1 1
      (getE ['k'] 0 0 baseCache).2)).2

/-- An entry with value 5, created at time 0, TTL 10, size 4. -/
def ttlEntry : Entry Nat :=
  { value := 5
    created_at := 0
    ttl := some 10
    last_access := 0
    access_count := 0
    size := 4 }

/-- A small cache holding a single entry under key `k` with a TTL of 10
(created at time 0, size 4). -/
def ttlCache : Cache Nat :=
  { baseCache with
    entries := [(['k'], ttlEntry)]
    total_memory := 4 }

/-- A concrete trace of four `set` calls. -/
def exSetCalls : List (SetCall Nat) :=
  [⟨['a'], 1, none, 1, 0⟩, ⟨['b'], 2, none, 2, 1⟩,
    ⟨['c'], 3, none, 3, 2⟩, ⟨['d'], 4, none, 4, 3⟩]

/-- The pattern scenario: keys `u:1`, `u:2`, `c:d` with unit sizes. -/
def patCache : Cache Nat :=
  setE ['c', ':', 'd'] 3 none 1 2
    (setE ['u', ':', '2'] 2 none 1 1
      (setE ['u', ':', '1'] 1 none 1 0 baseCache))

/-! ### Lemmas about the dot-key helpers -/

theorem splitOnDot_ne_nil (l : List Char) : splitOnDot l ≠ [] := by
  cases l with
  | nil => simp [splitOnDot]
  | cons c rest =>
    by_cases hc : c = '.'
    · simp [splitOnDot, hc]
    · simp only [splitOnDot, if_neg hc]
      cases h : splitOnDot rest with
      | nil => simp
      | cons s ss => simp

theorem exists_cons_splitOnDot (l : List Char) :
    ∃ s ss, splitOnDot l = s :: ss := by
  cases h : splitOnDot l with
  | nil => exact absurd h (splitOnDot_ne_nil l)
  | cons s ss => exact ⟨s, ss, rfl⟩

theorem joinDot_splitOnDot (l : List Char) : joinDot (splitOnDot l) = l := by
  induction l with
  | nil => rfl
  | cons c rest ih =>
    simp only [splitOnDot]
    by_cases hc : c = '.'
    · rw [if_pos hc]
      obtain ⟨s, ss, h⟩ := exists_cons_splitOnDot rest
      rw [h]
      show [] ++ '.' :: joinDot (s :: ss) = c :: rest
      rw [List.nil_append, ← h, ih, hc]
    · rw [if_neg hc]
      obtain ⟨s, ss, h⟩ := exists_cons_splitOnDot rest
      rw [h]
      cases ss with
      | nil =>
        show c :: s = c :: rest
        have hs : joinDot (s :: []) = rest := by rw [← h]; exact ih
        simpa [joinDot] using hs
      | cons s2 t =>
        show (c :: s) ++ '.' :: joinDot (s2 :: t) = c :: rest
        have hs : s ++ '.' :: joinDot (s2 :: t) = rest := by
          have := ih
          rw [h] at this
          exact this
        simp [List.cons_append, hs]

/-- C10: for every string, `join_dot_key` applied to the output of
`split_dot_key` gives the original string back: `join_dot_key` is a left
inverse of `split_dot_key` on all strings, including dot-free strings and
the empty string. -/
theorem dot_key_round_trip (s : List Char) :
    join_dot_key (split_dot_key s).1 (split_dot_key s).2 = s := by
  unfold split_dot_key join_dot_key
  have hne := splitOnDot_ne_nil s
  have h1 : (splitOnDot s).dropLast ++ [(splitOnDot s).getLastD []] = splitOnDot s := by
    rw [List.getLastD_eq_getLast? , List.getLast?_eq_getLast _ hne, Option.getD_some]
    exact List.dropLast_append_getLast hne
  simp only [h1]
  exact joinDot_splitOnDot s

/-! ### Association-list lemmas -/

theorem sizesSum_nil : sizesSum ([] : List (Key × Entry V)) = 0 := rfl

theorem sizesSum_cons (p : Key × Entry V) (l : List (Key × Entry V)) :
    sizesSum (p :: l) = p.2.size + sizesSum l := by
  simp [sizesSum]

theorem sizesSum_append (l₁ l₂ : List (Key × Entry V)) :
    sizesSum (l₁ ++ l₂) = sizesSum l₁ + sizesSum l₂ := by
  simp [sizesSum]

theorem eraseE_of_lookupE_none {k : Key} {l : List (Key × Entry V)}
    (h : lookupE k l = none) : eraseE k l = l := by
  induction l with
  | nil => rfl
  | cons p ps ih =>
    by_cases hk : p.1 = k
    · simp [lookupE, hk] at h
    · simp only [lookupE, if_neg hk] at h
      simp [eraseE, if_neg hk, ih h]

theorem lookupE_eq_none_iff {k : Key} {l : List (Key × Entry V)} :
    lookupE k l = none ↔ k ∉ l.map Prod.fst := by
  induction l with
  | nil => simp [lookupE]
  | cons p ps ih =>
    by_cases hk : p.1 = k
    · simp only [lookupE, if_pos hk, List.map_cons, List.mem_cons]
      constructor
      · intro h
        exact Option.noConfusion h
      · intro h
        exact absurd (Or.inl hk.symm) h
    · simp only [lookupE, if_neg hk, List.map_cons, List.mem_cons, ih]
      constructor
      · intro h hc
        rcases hc with h1 | h2
        · exact hk h1.symm
        · exact h h2
      · intro h h2
        exact h (Or.inr h2)

theorem sizesSum_eraseE {k : Key} {l : List (Key × Entry V)} {e : Entry V}
    (h : lookupE k l = some e) :
    sizesSum l = e.size + sizesSum (eraseE k l) := by
  induction l with
  | nil => simp [lookupE] at h
  | cons p ps ih =>
    by_cases hk : p.1 = k
    · simp only [lookupE, if_pos hk, Option.some.injEq] at h
      subst h
      simp [eraseE, if_pos hk, sizesSum_cons]
    · simp only [lookupE, if_neg hk] at h
      simp only [eraseE, if_neg hk, sizesSum_cons, ih h]
      omega

theorem eraseE_sublist (k : Key) (l : List (Key × Entry V)) :
    List.Sublist (eraseE k l) l := by
  induction l with
  | nil => exact List.Sublist.refl _
  | cons p ps ih =>
    by_cases hk : p.1 = k
    · simp only [eraseE, if_pos hk]
      exact List.sublist_cons_self p ps
    · simp only [eraseE, if_neg hk]
      exact List.Sublist.cons₂ p ih

theorem not_mem_keys_eraseE {k : Key} {l : List (Key × Entry V)}
    (hnd : (l.map Prod.fst).Nodup) : k ∉ (eraseE k l).map Prod.fst := by
  induction l with
  | nil => simp [eraseE]
  | cons p ps ih =>
    simp only [List.map_cons, List.nodup_cons] at hnd
    by_cases hk : p.1 = k
    · simp only [eraseE, if_pos hk]
      rw [← hk]
      exact hnd.1
    · simp only [eraseE, if_neg hk, List.map_cons, List.mem_cons]
      push_neg
      exact ⟨fun hc => hk hc.symm, ih hnd.2⟩

theorem sizesSum_filter_partition (q : Key × Entry V → Bool)
    (l : List (Key × Entry V)) :
    sizesSum (l.filter q) + sizesSum (l.filter (fun x => !q x)) = sizesSum l := by
  induction l with
  | nil => rfl
  | cons p ps ih =>
    by_cases hq : q p
    · simp [List.filter_cons, hq, sizesSum_cons]
      omega
    · simp only [List.filter_cons] at *
      simp [hq, sizesSum_cons] at *
      omega

/-! ### Lemmas about the memory-limit test -/

theorem memGt_zero {mm : ℚ} (h : 0 ≤ mm) : memGt 0 mm = false := by
  have hnum : 0 ≤ mm.num := Rat.num_nonneg.mpr h
  unfold memGt
  rw [decide_eq_false_iff_not]
  push_neg
  have h0 : ((0 : Nat) : Int) * mm.den = 0 := by simp
  rw [h0]
  exact mul_nonneg hnum (by norm_num)

theorem rat_le_bytes_of_memGt_false {total : Nat} {mm : ℚ}
    (h : memGt total mm = false) : (total : ℚ) ≤ mm * 1048576 := by
  have hle : (total : Int) * mm.den ≤ mm.num * 1048576 := by
    have := of_decide_eq_false h
    push_neg at this
    exact this
  have hden : (0 : ℚ) < (mm.den : ℚ) := by
    exact_mod_cast mm.pos
  rw [← mul_le_mul_right hden]
  have hmm : mm * (mm.den : ℚ) = (mm.num : ℚ) :=
    (eq_div_iff (ne_of_gt hden)).mp (Rat.num_div_den mm).symm
  calc (total : ℚ) * (mm.den : ℚ) = ((total * mm.den : ℤ) : ℚ) := by push_cast; ring
    _ ≤ ((mm.num * 1048576 : ℤ) : ℚ) := by exact_mod_cast hle
    _ = mm * 1048576 * (mm.den : ℚ) := by
        push_cast
        rw [mul_comm mm, mul_assoc, hmm]
        ring

/-! ### Configuration preservation and enforcement lemmas -/

theorem sameConfig_refl (c : Cache V) : sameConfig c c :=
  ⟨rfl, rfl, rfl, rfl, rfl⟩

theorem sameConfig_trans {a b c : Cache V} (h1 : sameConfig a b) (h2 : sameConfig b c) :
    sameConfig a c := by
  obtain ⟨x1, x2, x3, x4, x5⟩ := h1
  obtain ⟨y1, y2, y3, y4, y5⟩ := h2
  exact ⟨x1.trans y1, x2.trans y2, x3.trans y3, x4.trans y4, x5.trans y5⟩

theorem keys_append_nodup {l : List (Key × Entry V)} {k : Key} (e : Entry V)
    (hnd : (l.map Prod.fst).Nodup) (hk : k ∉ l.map Prod.fst) :
    ((l ++ [(k, e)]).map Prod.fst).Nodup := by
  rw [List.map_append, List.nodup_append]
  refine ⟨hnd, List.nodup_singleton _, ?_⟩
  intro x hx hx2
  simp only [List.map_cons, List.map_nil, List.mem_singleton] at hx2
  subst hx2
  exact hk hx

theorem enforceLoop_entries_drop (n : Nat) :
    ∀ c : Cache V, ∃ m, (enforceLoop n c).entries = List.drop m c.entries := by
  induction n with
  | zero => intro c; exact ⟨0, rfl⟩
  | succ n ih =>
    intro c
    simp only [enforceLoop]
    by_cases hc :
        (decide (c.entries.length > c.max_size) || memGt c.total_memory c.max_memory_mb) = true
    · rw [if_pos hc]
      cases hE : c.entries with
      | nil => exact ⟨0, by simp [hE]⟩
      | cons p rest =>
        obtain ⟨m, hm⟩ := ih
          { c with
            entries := rest
            total_memory := c.total_memory - p.2.size
            evictions := bump c.track_stats c.evictions 1 }
        exact ⟨m + 1, by simpa using hm⟩
    · rw [if_neg hc]
      exact ⟨0, rfl⟩

theorem enforceLoop_post (n : Nat) :
    ∀ c : Cache V, memAccurate c → 0 ≤ c.max_memory_mb → c.entries.length ≤ n →
      withinBounds (enforceLoop n c) ∧ memAccurate (enforceLoop n c) ∧
        sameConfig (enforceLoop n c) c := by
  induction n with
  | zero =>
    intro c hmem hmm hn
    have hE : c.entries = [] := List.length_eq_zero.mp (Nat.le_zero.mp hn)
    have h0 : c.total_memory = 0 := by rw [hmem, hE]; rfl
    refine ⟨⟨?_, ?_⟩, hmem, sameConfig_refl c⟩
    · show c.entries.length ≤ c.max_size
      rw [hE]
      exact Nat.zero_le _
    · show memGt c.total_memory c.max_memory_mb = false
      rw [h0]
      exact memGt_zero hmm
  | succ n ih =>
    intro c hmem hmm hn
    simp only [enforceLoop]
    by_cases hc :
        (decide (c.entries.length > c.max_size) || memGt c.total_memory c.max_memory_mb) = true
    · rw [if_pos hc]
      cases hE : c.entries with
      | nil =>
        exfalso
        have h0 : c.total_memory = 0 := by rw [hmem, hE]; rfl
        rw [hE, h0, memGt_zero hmm] at hc
        simp at hc
      | cons p rest =>
        have hmem2 : c.total_memory - p.2.size = sizesSum rest := by
          rw [hmem, hE, sizesSum_cons]
          omega
        have hn2 : rest.length ≤ n := by
          rw [hE] at hn
          simp only [List.length_cons] at hn
          omega
        obtain ⟨hb, hm2, hcfg⟩ := ih
          { c with
            entries := rest
            total_memory := c.total_memory - p.2.size
            evictions := bump c.track_stats c.evictions 1 }
          hmem2 hmm hn2
        exact ⟨hb, hm2, sameConfig_trans hcfg ⟨rfl, rfl, rfl, rfl, rfl⟩⟩
    · rw [if_neg hc]
      refine ⟨⟨?_, ?_⟩, hmem, sameConfig_refl c⟩
      · have := hc
        simp only [Bool.or_eq_true, decide_eq_true_eq, not_or] at this
        exact Nat.not_lt.mp this.1
      · have := hc
        simp only [Bool.or_eq_true, decide_eq_true_eq, not_or] at this
        exact Bool.eq_false_iff.mpr this.2

/-! ### Invariant preservation by the cache operations -/

theorem sweep_inv {c : Cache V} (now : Nat) (h : CacheInv c) :
    CacheInv (sweep now c) ∧ sameConfig (sweep now c) c := by
  obtain ⟨hnd, hmem, hmm⟩ := h
  unfold sweep
  by_cases ht : now - c.last_cleanup ≥ c.cleanup_interval
  · rw [if_pos ht]
    refine ⟨⟨?_, ?_, hmm⟩, ⟨rfl, rfl, rfl, rfl, rfl⟩⟩
    · exact List.Nodup.sublist (List.Sublist.map _ (List.filter_sublist _)) hnd
    · show c.total_memory - sizesSum (c.entries.filter fun p => isExpired now p.2) =
        sizesSum (c.entries.filter fun p => !isExpired now p.2)
      have hp := sizesSum_filter_partition (fun p => isExpired now p.2) c.entries
      rw [hmem]
      omega
  · rw [if_neg ht]
    exact ⟨⟨hnd, hmem, hmm⟩, sameConfig_refl c⟩

theorem finish_inv {c2 : Cache V} (now : Nat) (h : CacheInv c2) :
    CacheInv (enforce (sweep now c2)) ∧ withinBounds (enforce (sweep now c2)) ∧
      sameConfig (enforce (sweep now c2)) c2 := by
  obtain ⟨hinv2, hcfg2⟩ := sweep_inv now h
  obtain ⟨hnd2, hmem2, hmm2⟩ := hinv2
  unfold enforce
  obtain ⟨hb, hmem3, hcfg3⟩ :=
    enforceLoop_post (sweep now c2).entries.length (sweep now c2) hmem2 hmm2 (le_refl _)
  obtain ⟨m, hdrop⟩ := enforceLoop_entries_drop (sweep now c2).entries.length (sweep now c2)
  have hnd3 : keysNodup (enforceLoop (sweep now c2).entries.length (sweep now c2)) := by
    show ((enforceLoop (sweep now c2).entries.length (sweep now c2)).entries.map Prod.fst).Nodup
    rw [hdrop]
    exact List.Nodup.sublist (List.Sublist.map _ (List.drop_sublist _ _)) hnd2
  have hmm3 : 0 ≤ (enforceLoop (sweep now c2).entries.length (sweep now c2)).max_memory_mb := by
    rw [hcfg3.2.1]
    exact hmm2
  exact ⟨⟨hnd3, hmem3, hmm3⟩, hb, sameConfig_trans hcfg3 hcfg2⟩

theorem setE_inv {c : Cache V} (k : Key) (v : V) (ttl? : Option Nat) (sz now : Nat)
    (h : CacheInv c) :
    CacheInv (setE k v ttl? sz now c) ∧ withinBounds (setE k v ttl? sz now c) ∧
      sameConfig (setE k v ttl? sz now c) c := by
  obtain ⟨hnd, hmem, hmm⟩ := h
  unfold setE
  cases hL : lookupE k c.entries with
  | none =>
    simp only []
    have hk : k ∉ c.entries.map Prod.fst := lookupE_eq_none_iff.mp hL
    have hinv2 : CacheInv
        { c with
          entries := c.entries ++ [(k,
            { value := v
              created_at := now
              ttl := match ttl? with | some t => some t | none => c.default_ttl
              last_access := now
              access_count := 0
              size := sz })]
          total_memory := c.total_memory + sz } := by
      refine ⟨keys_append_nodup _ hnd hk, ?_, hmm⟩
      show c.total_memory + sz = sizesSum (c.entries ++ [_])
      rw [sizesSum_append, hmem, sizesSum_cons, sizesSum_nil]
      simp
    obtain ⟨h1, h2, h3⟩ := finish_inv now hinv2
    exact ⟨h1, h2, sameConfig_trans h3 ⟨rfl, rfl, rfl, rfl, rfl⟩⟩
  | some old =>
    simp only []
    have hnd1 : ((eraseE k c.entries).map Prod.fst).Nodup :=
      List.Nodup.sublist (List.Sublist.map _ (eraseE_sublist k c.entries)) hnd
    have hk1 : k ∉ (eraseE k c.entries).map Prod.fst := not_mem_keys_eraseE hnd
    have hmem1 : c.total_memory - old.size = sizesSum (eraseE k c.entries) := by
      have := sizesSum_eraseE hL
      omega
    have hinv2 : CacheInv
        { c with
          entries := eraseE k c.entries ++ [(k,
            { value := v
              created_at := now
              ttl := match ttl? with | some t => some t | none => c.default_ttl
              last_access := now
              access_count := 0
              size := sz })]
          total_memory := c.total_memory - old.size + sz } := by
      refine ⟨keys_append_nodup _ hnd1 hk1, ?_, hmm⟩
      show c.total_memory - old.size + sz = sizesSum (eraseE k c.entries ++ [_])
      rw [sizesSum_append, hmem1, sizesSum_cons, sizesSum_nil]
      simp
    obtain ⟨h1, h2, h3⟩ := finish_inv now hinv2
    exact ⟨h1, h2, sameConfig_trans h3 ⟨rfl, rfl, rfl, rfl, rfl⟩⟩

theorem getE_inv {c : Cache V} (k : Key) (d : V) (now : Nat) (h : CacheInv c) :
    CacheInv (getE k d now c).2 ∧ sameConfig (getE k d now c).2 c := by
  obtain ⟨hinv1, hcfg1⟩ := sweep_inv now h
  obtain ⟨hnd1, hmem1, hmm1⟩ := hinv1
  simp only [getE]
  cases hL : lookupE k (sweep now c).entries with
  | none =>
    exact ⟨⟨hnd1, hmem1, hmm1⟩, sameConfig_trans ⟨rfl, rfl, rfl, rfl, rfl⟩ hcfg1⟩
  | some e =>
    by_cases hx : isExpired now e = true
    · simp only [hx, if_true]
      refine ⟨⟨?_, ?_, hmm1⟩, sameConfig_trans ⟨rfl, rfl, rfl, rfl, rfl⟩ hcfg1⟩
      · exact List.Nodup.sublist (List.Sublist.map _ (eraseE_sublist k _)) hnd1
      · show (sweep now c).total_memory - e.size = sizesSum (eraseE k (sweep now c).entries)
        have := sizesSum_eraseE hL
        omega
    · rw [Bool.not_eq_true] at hx
      simp only [hx, Bool.false_eq_true, if_false]
      refine ⟨⟨?_, ?_, hmm1⟩, sameConfig_trans ⟨rfl, rfl, rfl, rfl, rfl⟩ hcfg1⟩
      · exact keys_append_nodup _
          (List.Nodup.sublist (List.Sublist.map _ (eraseE_sublist k _)) hnd1)
          (not_mem_keys_eraseE hnd1)
      · show (sweep now c).total_memory =
          sizesSum (eraseE k (sweep now c).entries ++ [(k, _)])
        rw [sizesSum_append, sizesSum_cons, sizesSum_nil]
        have := sizesSum_eraseE hL
        simp only []
        omega

theorem deleteE_inv {c : Cache V} (k : Key) (h : CacheInv c) :
    CacheInv (deleteE k c).2 ∧ sameConfig (deleteE k c).2 c := by
  obtain ⟨hnd, hmem, hmm⟩ := h
  unfold deleteE
  cases hL : lookupE k c.entries with
  | none => exact ⟨⟨hnd, hmem, hmm⟩, sameConfig_refl c⟩
  | some e =>
    refine ⟨⟨?_, ?_, hmm⟩, ⟨rfl, rfl, rfl, rfl, rfl⟩⟩
    · exact List.Nodup.sublist (List.Sublist.map _ (eraseE_sublist k c.entries)) hnd
    · show c.total_memory - e.size = sizesSum (eraseE k c.entries)
      have := sizesSum_eraseE hL
      omega

theorem invalidatePattern_inv {c : Cache V} (pat : Key) (h : CacheInv c) :
    CacheInv (invalidatePattern pat c).2 ∧ sameConfig (invalidatePattern pat c).2 c := by
  obtain ⟨hnd, hmem, hmm⟩ := h
  unfold invalidatePattern
  refine ⟨⟨?_, ?_, hmm⟩, ⟨rfl, rfl, rfl, rfl, rfl⟩⟩
  · exact List.Nodup.sublist (List.Sublist.map _ (List.filter_sublist _)) hnd
  · show c.total_memory - sizesSum (c.entries.filter fun p => globMatch pat p.1) =
      sizesSum (c.entries.filter fun p => !globMatch pat p.1)
    have hp := sizesSum_filter_partition (fun p => globMatch pat p.1) c.entries
    rw [hmem]
    omega

theorem clearE_inv {c : Cache V} (h : CacheInv c) :
    CacheInv (clearE c) ∧ sameConfig (clearE c) c := by
  exact ⟨⟨List.nodup_nil, rfl, h.2.2⟩, ⟨rfl, rfl, rfl, rfl, rfl⟩⟩

theorem mkCache_some_inv {ms : Int} {mm : ℚ} {dt : Option Nat} {ci : Nat} {ts : Bool}
    {c0 : Cache V} (h : mkCache V ms mm dt ci ts = some c0) :
    CacheInv c0 ∧ c0.entries = [] ∧ c0.total_memory = 0 ∧ c0.max_memory_mb = mm ∧
      c0.max_size = ms.toNat ∧ c0.hits = 0 ∧ c0.misses = 0 ∧ c0.evictions = 0 ∧
      c0.expired_cleanups = 0 ∧ c0.track_stats = ts ∧ c0.default_ttl = dt ∧
      c0.cleanup_interval = ci := by
  unfold mkCache at h
  by_cases hcond : ms ≤ 0 ∨ mm ≤ 0
  · rw [if_pos hcond] at h
    exact Option.noConfusion h
  · rw [if_neg hcond] at h
    push_neg at hcond
    obtain ⟨h1, h2⟩ := hcond
    cases h
    refine ⟨⟨List.nodup_nil, rfl, le_of_lt h2⟩, rfl, rfl, rfl, rfl, rfl, rfl, rfl, rfl,
      rfl, rfl, rfl⟩

theorem applyCalls_inv {calls : List (SetCall V)} :
    ∀ {c : Cache V}, CacheInv c →
      CacheInv (applyCalls c calls) ∧ sameConfig (applyCalls c calls) c ∧
        (calls ≠ [] → withinBounds (applyCalls c calls)) := by
  induction calls with
  | nil =>
    intro c h
    exact ⟨h, sameConfig_refl c, fun hne => absurd rfl hne⟩
  | cons sc rest ih =>
    intro c h
    obtain ⟨h1, hb1, hcfg1⟩ := setE_inv sc.key sc.value sc.ttl sc.size sc.now h
    obtain ⟨h2, hcfg2, hb2⟩ := ih h1
    refine ⟨h2, sameConfig_trans hcfg2 hcfg1, fun _ => ?_⟩
    cases rest with
    | nil => exact hb1
    | cons sc2 r2 => exact hb2 (List.cons_ne_nil _ _)

/-! ### Lookup after filtering (used for sweep/TTL reasoning) -/

theorem mem_of_lookupE {l : List (Key × Entry V)} {k : Key} {e : Entry V}
    (h : lookupE k l = some e) : (k, e) ∈ l := by
  induction l with
  | nil => simp [lookupE] at h
  | cons p ps ih =>
    by_cases hk : p.1 = k
    · simp only [lookupE, if_pos hk, Option.some.injEq] at h
      subst h
      have hp : (k, p.2) = p := by rw [← hk]
      rw [hp]
      exact List.mem_cons_self _ _
    · simp only [lookupE, if_neg hk] at h
      exact List.mem_cons_of_mem _ (ih h)

theorem lookupE_filter_keep {l : List (Key × Entry V)} {k : Key} {e : Entry V}
    (q : Key × Entry V → Bool) (h : lookupE k l = some e) (hq : q (k, e) = true) :
    lookupE k (l.filter q) = some e := by
  induction l with
  | nil => simp [lookupE] at h
  | cons p ps ih =>
    by_cases hk : p.1 = k
    · simp only [lookupE, if_pos hk, Option.some.injEq] at h
      subst h
      have hp : p = (k, p.2) := by rw [← hk]
      have hqp : q p = true := by rw [hp]; exact hq
      rw [List.filter_cons, if_pos hqp]
      simp [lookupE, hk]
    · simp only [lookupE, if_neg hk] at h
      rw [List.filter_cons]
      by_cases hqp : q p = true
      · rw [if_pos hqp]
        simp only [lookupE, if_neg hk]
        exact ih h
      · rw [if_neg hqp]
        exact ih h

theorem lookupE_filter_drop {l : List (Key × Entry V)} {k : Key} {e : Entry V}
    (q : Key × Entry V → Bool) (hnd : (l.map Prod.fst).Nodup)
    (h : lookupE k l = some e) (hq : q (k, e) = false) :
    lookupE k (l.filter q) = none := by
  rw [lookupE_eq_none_iff]
  intro hmem
  obtain ⟨p, hp, hpk⟩ := List.mem_map.mp hmem
  have hpl : p ∈ l := (List.mem_filter.mp hp).1
  have hpq : q p = true := (List.mem_filter.mp hp).2
  have hke : (k, e) ∈ l := mem_of_lookupE h
  have : p = (k, e) := List.inj_on_of_nodup_map hnd hpl hke hpk
  rw [this, hq] at hpq
  exact Bool.noConfusion hpq

theorem lookupE_sweep_keep {c : Cache V} {k : Key} {e : Entry V} (now : Nat)
    (h : lookupE k c.entries = some e) (hx : isExpired now e = false) :
    lookupE k (sweep now c).entries = some e := by
  unfold sweep
  by_cases ht : now - c.last_cleanup ≥ c.cleanup_interval
  · rw [if_pos ht]
    exact lookupE_filter_keep _ h (by rw [hx]; rfl)
  · rw [if_neg ht]
    exact h

theorem lookupE_sweep_of_expired {c : Cache V} {k : Key} {e : Entry V} (now : Nat)
    (hnd : keysNodup c) (h : lookupE k c.entries = some e) (hx : isExpired now e = true) :
    lookupE k (sweep now c).entries = none ∨ lookupE k (sweep now c).entries = some e := by
  unfold sweep
  by_cases ht : now - c.last_cleanup ≥ c.cleanup_interval
  · rw [if_pos ht]
    left
    exact lookupE_filter_drop _ hnd h (by rw [hx]; rfl)
  · rw [if_neg ht]
    right
    exact h

/-! ### Glob-matcher lemmas -/

theorem splitOnStar_no_star {pat : List Char} (h : '*' ∉ pat) :
    splitOnStar pat = [pat] := by
  induction pat with
  | nil => rfl
  | cons c rest ih =>
    have hc : ¬(c = '*') := fun hc => h (by rw [hc]; exact List.mem_cons_self _ _)
    have hrest : '*' ∉ rest := fun hm => h (List.mem_cons_of_mem _ hm)
    simp only [splitOnStar, if_neg hc, ih hrest]

theorem stripSeg_eq_some_iff {s r : List Char} :
    ∀ {k : List Char}, stripSeg s k = some r ↔ k = s ++ r := by
  induction s with
  | nil =>
    intro k
    simp [stripSeg, eq_comm]
  | cons c cs ih =>
    intro k
    cases k with
    | nil =>
      simp [stripSeg]
    | cons x xs =>
      by_cases hc : c = x
      · subst hc
        simp only [stripSeg, if_pos rfl, List.cons_append, List.cons.injEq, true_and]
        exact ih
      · simp only [stripSeg, if_neg hc, List.cons_append, List.cons.injEq]
        constructor
        · intro h
          exact Option.noConfusion h
        · intro h
          exact absurd h.1.symm hc

theorem globMatch_no_star {pat : List Char} (h : '*' ∉ pat) (key : List Char) :
    globMatch pat key = true ↔ key = pat := by
  have hG : globMatch pat key =
      (match stripSeg pat key with
        | none => false
        | some rest => matchSegs [] rest) := by
    unfold globMatch
    rw [splitOnStar_no_star h]
  cases hS : stripSeg pat key with
  | none =>
    rw [hG, hS]
    constructor
    · intro hfalse
      exact Bool.noConfusion hfalse
    · intro hkey
      have h0 : stripSeg pat key = some [] :=
        stripSeg_eq_some_iff.mpr (by rw [hkey, List.append_nil])
      rw [h0] at hS
      exact Option.noConfusion hS
  | some rest =>
    rw [hG, hS]
    show rest.isEmpty = true ↔ key = pat
    have hkey : key = pat ++ rest := stripSeg_eq_some_iff.mp hS
    cases rest with
    | nil =>
      rw [List.append_nil] at hkey
      exact ⟨fun _ => hkey, fun _ => rfl⟩
    | cons x xs =>
      simp only [List.isEmpty_cons]
      constructor
      · intro hfalse
        exact Bool.noConfusion hfalse
      · intro hk
        rw [hk] at hkey
        have hlen := congrArg List.length hkey
        simp at hlen

/-! ### Claim theorems -/

/-- C1: for every sequence of `set` calls on a cache constructed with
limits `max_size` and `max_memory_bytes`, after each `set` call completes
(including capacity enforcement) the number of entries is at most
`max_size` and `total_memory` is at most `max_memory_bytes`. -/
theorem capacity_invariant {V : Type} {ms : Int} {mm : ℚ} {dt : Option Nat} {ci : Nat}
    {ts : Bool} {c0 : Cache V} (h : mkCache V ms mm dt ci ts = some c0)
    (calls : List (SetCall V)) (hne : calls ≠ []) :
    (applyCalls c0 calls).entries.length ≤ c0.max_size ∧
      ((applyCalls c0 calls).total_memory : ℚ) ≤ c0.maxMemoryBytes := by
  obtain ⟨hinv, -, -, -, -⟩ := mkCache_some_inv h
  obtain ⟨-, hcfg, hb⟩ := applyCalls_inv hinv
  obtain ⟨hb1, hb2⟩ := hb hne
  constructor
  · rw [← hcfg.1]
    exact hb1
  · have hq := rat_le_bytes_of_memGt_false hb2
    rw [hcfg.2.1] at hq
    exact hq

/-- C2: on a cache with `max_size = 3` and no TTLs, after set A, set B,
set C, get A, set D, the evicted entry is exactly B while A, C and D
remain; and in general capacity enforcement only ever removes entries
from the least-recently-used end of the recency order (the surviving
entries are a suffix of the pre-enforcement order, so ties are broken by
insertion order). -/
theorem lru_correctness :
    (hasKeyE ['A'] 5 lruFinal = true ∧ hasKeyE ['B'] 5 lruFinal = false ∧
      hasKeyE ['C'] 5 lruFinal = true ∧ hasKeyE ['D'] 5 lruFinal = true ∧
      lruFinal.evictions = 1) ∧
    ∀ (V : Type) (n : Nat) (c : Cache V),
      ∃ m, (enforceLoop n c).entries = List.drop m c.entries := by
  constructor
  · exact ⟨by decide, by decide, by decide, by decide, by decide⟩
  · intro V n c
    exact enforceLoop_entries_drop n c

/-- C9: constructing a cache with a non-positive `max_size` or a
non-positive `max_memory_mb` is rejected, for every non-positive value of
either parameter; every positive configuration is accepted. -/
theorem construction_validation (V : Type) (ms : Int) (mm : ℚ) (dt : Option Nat)
    (ci : Nat) (ts : Bool) :
    ((ms ≤ 0 ∨ mm ≤ 0) → mkCache V ms mm dt ci ts = none) ∧
    ((0 < ms ∧ 0 < mm) → (mkCache V ms mm dt ci ts).isSome = true) := by
  constructor
  · intro h
    unfold mkCache
    rw [if_pos h]
  · rintro ⟨h1, h2⟩
    unfold mkCache
    rw [if_neg (by push_neg; exact ⟨h1, h2⟩)]
    rfl

/-- Witness for C9 at `max_size = -1` (rejected) and at
`max_size = 1000, max_memory_mb = 100` (accepted). -/
theorem construction_validation_witness :
    (((-1 : Int) ≤ 0 ∨ (100 : ℚ) ≤ 0) ∧ mkCache Nat (-1) 100 none 60 true = none) ∧
    (((0 : Int) < 1000 ∧ (0 : ℚ) < 100) ∧
      (mkCache Nat 1000 100 none 60 true).isSome = true) :=
  ⟨⟨Or.inl (by decide),
      (construction_validation Nat (-1) 100 none 60 true).1 (Or.inl (by decide))⟩,
    ⟨⟨by decide, by decide⟩,
      (construction_validation Nat 1000 100 none 60 true).2 ⟨by decide, by decide⟩⟩⟩

/-- Witness for C1: four concrete `set` calls on a freshly constructed
cache with `max_size = 3` and `max_memory_mb = 100`. -/
theorem capacity_invariant_witness :
    (mkCache Nat 3 100 none 60 true = some lruCache ∧ exSetCalls ≠ []) ∧
    ((applyCalls lruCache exSetCalls).entries.length ≤ lruCache.max_size ∧
      ((applyCalls lruCache exSetCalls).total_memory : ℚ) ≤ lruCache.maxMemoryBytes) :=
  ⟨⟨by decide, by decide⟩,
    @capacity_invariant Nat 3 100 none 60 true lruCache (by decide) exSetCalls (by decide)⟩

/-- C3: an entry stored without a ttl never expires; for an entry with a
ttl, `get` before expiry (`now - created_at ≤ ttl`) returns the stored
value, while after expiry (`now - created_at > ttl`) `get` returns the
default and `has_key` returns `False`; and an entry present in the cache
is reported absent by `has_key` iff its ttl is set and
`now - created_at > ttl`. -/
theorem ttl_correctness {V : Type} {c : Cache V} {k : Key} {e : Entry V} (d : V) (now : Nat)
    (hnd : keysNodup c) (hL : lookupE k c.entries = some e) :
    (e.ttl = none → hasKeyE k now c = true) ∧
    (∀ t, e.ttl = some t →
      (now - e.created_at ≤ t → (getE k d now c).1 = e.value ∧ hasKeyE k now c = true) ∧
      (now - e.created_at > t → (getE k d now c).1 = d ∧ hasKeyE k now c = false)) ∧
    (hasKeyE k now c = false ↔ ∃ t, e.ttl = some t ∧ now - e.created_at > t) := by
  have hHK : hasKeyE k now c = !isExpired now e := by
    unfold hasKeyE
    rw [hL]
  refine ⟨?_, ?_, ?_⟩
  · intro hn
    rw [hHK]
    simp [isExpired, hn]
  · intro t ht
    have hXdef : isExpired now e = decide (now - e.created_at > t) := by
      simp [isExpired, ht]
    constructor
    · intro hle
      have hx : isExpired now e = false := by
        rw [hXdef]
        simp only [decide_eq_false_iff_not, not_lt]
        exact hle
      constructor
      · have hLs := lookupE_sweep_keep now hL hx
        simp only [getE]
        rw [hLs]
        simp only [hx, Bool.false_eq_true, if_false]
      · rw [hHK, hx]
        rfl
    · intro hgt
      have hx : isExpired now e = true := by
        rw [hXdef]
        simp only [decide_eq_true_eq]
        exact hgt
      constructor
      · rcases lookupE_sweep_of_expired now hnd hL hx with hnone | hsome
        · simp only [getE]
          rw [hnone]
        · simp only [getE]
          rw [hsome]
          simp only [hx, if_true]
      · rw [hHK, hx]
        rfl
  · rw [hHK]
    cases hTt : e.ttl with
    | none => simp [isExpired, hTt]
    | some t => simp [isExpired, hTt]

/-- Witness for C3 on `ttlCache` at time 20 (past the TTL of 10). -/
theorem ttl_correctness_witness :
    (keysNodup ttlCache ∧ lookupE ['k'] ttlCache.entries = some ttlEntry ∧
      ttlEntry.ttl = some 10 ∧ 20 - ttlEntry.created_at > 10) ∧
    ((getE ['k'] 0 20 ttlCache).1 = 0 ∧ hasKeyE ['k'] 20 ttlCache = false) :=
  ⟨⟨by decide, by decide, by decide, by decide⟩,
    ((@ttl_correctness Nat ttlCache ['k'] ttlEntry 0 20 (by decide) (by decide)).2.1
      10 (by decide)).2 (by decide)⟩

/-- C4: every public operation keeps `total_memory` equal to the sum of
the `size` fields of the live entries (and keeps keys distinct and the
memory limit non-negative): `set` (also on overwrite, where the old size
is replaced by the new), `get`, `delete`, `clear` and
`invalidate_pattern` all preserve the accounting invariant. -/
theorem memory_accounting {V : Type} {c : Cache V} (h : CacheInv c) (k : Key) (v : V)
    (ttl? : Option Nat) (sz now : Nat) (d : V) (pat : Key) :
    CacheInv (setE k v ttl? sz now c) ∧ CacheInv (getE k d now c).2 ∧
      CacheInv (deleteE k c).2 ∧ CacheInv (clearE c) ∧
      CacheInv (invalidatePattern pat c).2 :=
  ⟨(setE_inv k v ttl? sz now h).1, (getE_inv k d now h).1, (deleteE_inv k h).1,
    (clearE_inv h).1, (invalidatePattern_inv pat h).1⟩

/-- Witness for C4 on `ttlCache` (overwriting `set` on the existing key
`k`, `get`, `delete`, `clear`, pattern invalidation). -/
theorem memory_accounting_witness :
    CacheInv ttlCache ∧
      (CacheInv (setE ['k'] 7 none 2 5 ttlCache) ∧
        CacheInv (getE ['k'] 0 5 ttlCache).2 ∧
        CacheInv (deleteE ['k'] ttlCache).2 ∧
        CacheInv (clearE ttlCache) ∧
        CacheInv (invalidatePattern ['k'] ttlCache).2) :=
  ⟨by decide, memory_accounting (by decide) ['k'] 7 none 2 5 0 ['k']⟩

/-- C5: `clear` removes all entries and resets `total_memory` to 0 while
leaving the `hits`, `misses`, `evictions` and `expired_cleanups` counters
and every configuration field (`max_size`, the memory limit,
`default_ttl`, `cleanup_interval`, `track_stats`) exactly as they were. -/
theorem clear_frame {V : Type} (c : Cache V) :
    (clearE c).entries = [] ∧ (clearE c).total_memory = 0 ∧
    (clearE c).hits = c.hits ∧ (clearE c).misses = c.misses ∧
    (clearE c).evictions = c.evictions ∧
    (clearE c).expired_cleanups = c.expired_cleanups ∧
    (clearE c).max_size = c.max_size ∧ (clearE c).max_memory_mb = c.max_memory_mb ∧
    (clearE c).maxMemoryBytes = c.maxMemoryBytes ∧
    (clearE c).default_ttl = c.default_ttl ∧
    (clearE c).cleanup_interval = c.cleanup_interval ∧
    (clearE c).track_stats = c.track_stats :=
  ⟨rfl, rfl, rfl, rfl, rfl, rfl, rfl, rfl, rfl, rfl, rfl, rfl⟩

/-- C6: `get_stats` reports `hit_rate = hits / (hits + misses)` when
`hits + misses > 0` and `0` otherwise, and `size` equal to the current
entry count; after one miss then one hit on the same key the hit rate is
exactly `1/2`, and with zero requests it is `0`. -/
theorem hit_rate_formula :
    (∀ (V : Type) (c : Cache V),
      (getStats c).hit_rate =
        (if c.hits + c.misses > 0 then (c.hits : ℚ) / ((c.hits : ℚ) + (c.misses : ℚ))
          else 0) ∧
      (getStats c).size = c.entries.length) ∧
    (getStats statsFinal).hit_rate = 1 / 2 ∧
    (getStats baseCache).hit_rate = 0 := by
  refine ⟨fun V c => ⟨rfl, rfl⟩, ?_, ?_⟩
  · have h1 : statsFinal.hits = 1 := by decide
    have h2 : statsFinal.misses = 1 := by decide
    show (if statsFinal.hits + statsFinal.misses > 0 then
        ((statsFinal.hits : ℚ)) / ((statsFinal.hits : ℚ) + (statsFinal.misses : ℚ))
      else 0) = 1 / 2
    rw [h1, h2]
    norm_num
  · rfl

/-- C7: `invalidate_pattern` removes exactly the entries whose key
matches the glob pattern and returns their number, leaving non-matching
entries untouched; a pattern without `*` matches only the identical key;
`CacheMixin.invalidate_cache` with a non-`None` pattern returns the same
count; and on keys `u:1`, `u:2`, `c:d` the pattern `u:*` removes exactly
the two `u:` keys and returns 2. -/
theorem pattern_invalidation :
    (∀ (V : Type) (pat : Key) (c : Cache V) (k : Key) (e : Entry V),
      (k, e) ∈ (invalidatePattern pat c).2.entries ↔
        (k, e) ∈ c.entries ∧ globMatch pat k = false) ∧
    (∀ (V : Type) (pat : Key) (c : Cache V),
      (invalidatePattern pat c).1 = c.entries.countP (fun p => globMatch pat p.1)) ∧
    (∀ pat : Key, '*' ∉ pat → ∀ key : Key, globMatch pat key = true ↔ key = pat) ∧
    (∀ (V : Type) (pat : Key) (c : Cache V),
      (mixinInvalidateCache (some pat) (some c)).1 = (invalidatePattern pat c).1) ∧
    ((invalidatePattern ['u', ':', '*'] patCache).1 = 2 ∧
      hasKeyE ['u', ':', '1'] 3 (invalidatePattern ['u', ':', '*'] patCache).2 = false ∧
      hasKeyE ['u', ':', '2'] 3 (invalidatePattern ['u', ':', '*'] patCache).2 = false ∧
      hasKeyE ['c', ':', 'd'] 3 (invalidatePattern ['u', ':', '*'] patCache).2 = true) := by
  refine ⟨?_, ?_, ?_, ?_, ?_⟩
  · intro V pat c k e
    unfold invalidatePattern
    simp only [List.mem_filter, Bool.not_eq_true']
  · intro V pat c
    unfold invalidatePattern
    exact (List.countP_eq_length_filter _ _).symm
  · intro pat h key
    exact globMatch_no_star h key
  · intro V pat c
    rfl
  · exact ⟨by decide, by decide, by decide, by decide⟩

/-- Witness for C7's no-`*` clause at the literal pattern `ab`. -/
theorem pattern_invalidation_witness :
    ('*' ∉ ['a', 'b']) ∧ (globMatch ['a', 'b'] ['a', 'b'] = true ↔ ['a', 'b'] = ['a', 'b']) :=
  ⟨by decide, pattern_invalidation.2.2.1 ['a', 'b'] (by decide) ['a', 'b']⟩

/-- C8: `CacheMixin.get_value` consults `has_key` first; when it reports
`True` the method returns the cache's `get` result without consulting the
underlying document (so a cached `None` is returned as `None`); when it
reports `False` the method returns the parent `get_key` value and stores
exactly that value in the cache (including `None` results). -/
theorem cache_mixin_get_value {V : Type} (est : V → Nat) (doc doc2 : Key → Option V)
    (d : V) (k : Key) (now : Nat) (c : Cache V) :
    (hasKeyE k now c = true →
      (mixinGetValue est doc d k now (some c)).1 = (getE k d now c).1 ∧
      (mixinGetValue est doc d k now (some c)).1 =
        (mixinGetValue est doc2 d k now (some c)).1 ∧
      (mixinGetValue est doc d k now (some c)).2 = some (getE k d now c).2) ∧
    (hasKeyE k now c = false →
      (mixinGetValue est doc d k now (some c)).1 = (doc k).getD d ∧
      (mixinGetValue est doc d k now (some c)).2 =
        some (setE k ((doc k).getD d) none (est ((doc k).getD d)) now c)) := by
  constructor
  · intro hk
    refine ⟨?_, ?_, ?_⟩
    · simp only [mixinGetValue, hk, if_true]
    · simp only [mixinGetValue, hk, if_true]
    · simp only [mixinGetValue, hk, if_true]
  · intro hk
    refine ⟨?_, ?_⟩
    · simp only [mixinGetValue, hk, Bool.false_eq_true, if_false]
    · simp only [mixinGetValue, hk, Bool.false_eq_true, if_false]

/-- Witness for C8 on `ttlCache`: a hit on the cached key `k` ignores the
document, and a miss on `z` reads the document value 9. -/
theorem cache_mixin_get_value_witness :
    (hasKeyE ['k'] 1 ttlCache = true ∧
      (mixinGetValue (fun _ => 1) (fun _ => some 9) 0 ['k'] 1 (some ttlCache)).1 =
        (getE ['k'] 0 1 ttlCache).1) ∧
    (hasKeyE ['z'] 1 ttlCache = false ∧
      (mixinGetValue (fun _ => 1) (fun _ => some 9) 0 ['z'] 1 (some ttlCache)).1 =
        (Option.getD (some 9) 0)) := by
  refine ⟨⟨by decide, ?_⟩, ⟨by decide, ?_⟩⟩
  · exact ((cache_mixin_get_value (fun _ => 1) (fun _ => some 9) (fun _ => none) 0
      ['k'] 1 ttlCache).1 (by decide)).1
  · exact ((cache_mixin_get_value (fun _ => 1) (fun _ => some 9) (fun _ => none) 0
      ['z'] 1 ttlCache).2 (by decide)).1

end Yapfm
